import Mathlib

/-!
Verification of the document-to-context retrieval pipeline of the repository
(`src/utils/document_processor.py`, `src/utils/assistant.py`).

Python strings are modelled as `List Char`; the tokenizer and the sentence
embedder are black-box collaborators (per the specification) and are modelled
as explicit parameters (`Tokenizer`, an embedding function).  Machine floats
are modelled by exact rationals; a floating-point NaN (produced by `0/0`) is
modelled by `Option.none`.
-/

/-- Whitespace characters matched by Python's regex class backslash-s on ASCII
text (space, tab, newline, carriage return, vertical tab, form feed). -/
def isPySpace (c : Char) : Bool :=
  c = ' ' || c = '\t' || c = '\n' || c = '\r' || c = '\x0b' || c = '\x0c'

/-- Word characters of Python's regex class backslash-w on ASCII text. -/
def isWordChar (c : Char) : Bool :=
  c.isAlphanum || c = '_'

/-- Characters kept by `_clean_text`'s second substitution: word characters,
whitespace, and the punctuation allow-list `. ! ? , ; : - ( )`. -/
def isAllowedChar (c : Char) : Bool :=
  isWordChar c || isPySpace c ||
    c = '.' || c = '!' || c = '?' || c = ',' || c = ';' || c = ':' ||
    c = '-' || c = '(' || c = ')'

/-- Model of `re.sub(r'\s+', ' ', text)`: every maximal run of whitespace
characters is replaced by a single space. -/
def collapseWs : List Char → List Char
  | [] => []
  | [c] => if isPySpace c then [' '] else [c]
  | c :: d :: cs =>
    if isPySpace c && isPySpace d then collapseWs (d :: cs)
    else (if isPySpace c then ' ' else c) :: collapseWs (d :: cs)

/-- Replacement text for a pending run of `n` newlines under
`re.sub(r'\n{3,}', '\n\n', text)`: runs of three or more become two. -/
def emitNl (n : Nat) : List Char :=
  if 3 ≤ n then ['\n', '\n'] else List.replicate n '\n'

/-- Worker for `collapseNl`; `n` counts the newline run read so far. -/
def collapseNlAux : Nat → List Char → List Char
  | n, [] => emitNl n
  | n, c :: cs =>
    if c = '\n' then collapseNlAux (n + 1) cs
    else emitNl n ++ c :: collapseNlAux 0 cs

/-- Model of `re.sub(r'\n{3,}', '\n\n', text)`. -/
def collapseNl (l : List Char) : List Char :=
  collapseNlAux 0 l

/-- Model of Python's `str.strip()` on ASCII text: remove leading and
trailing whitespace. -/
def pyStrip (l : List Char) : List Char :=
  ((l.dropWhile isPySpace).reverse.dropWhile isPySpace).reverse

/-- Model of `DocumentProcessor._clean_text`: collapse whitespace runs to a
single space, drop characters outside the allow-list, collapse runs of three
or more newlines to two, and strip. -/
def clean_text (text : List Char) : List Char :=
  pyStrip (collapseNl ((collapseWs text).filter isAllowedChar))

/-- Model of Python's `text.split('\n\n')`: split on each leftmost
non-overlapping occurrence of two consecutive newlines, keeping empty
segments (so the result is always non-empty). -/
def splitNN : List Char → List (List Char)
  | [] => [[]]
  | [c] => [[c]]
  | c1 :: c2 :: cs =>
    if c1 = '\n' && c2 = '\n' then [] :: splitNN cs
    else
      match splitNN (c2 :: cs) with
      | [] => [[c1]]
      | h :: t => (c1 :: h) :: t

/-- The injected token interface used by the chunker (`tiktoken` in the
source is a black-box encode/decode pair per the specification). -/
structure Tokenizer where
  encode : List Char → List Nat
  decode : List Nat → List Char

/-- A concrete tokenizer instance: one token per character.  `decode` is a
left inverse of `encode` on valid text, as for the source's tokenizer. -/
def charTok : Tokenizer where
  encode l := l.map Char.toNat
  decode l := l.map Char.ofNat

/-- Model of `DocumentProcessor._get_overlap_text`: decode the last
`overlap_tokens` tokens of `text`; if `text` has at most that many tokens,
return it whole.  (Python's `tokens[-n:]` with `n = 0` is the whole list.) -/
def get_overlap_text (tok : Tokenizer) (text : List Char) (overlap_tokens : Nat) : List Char :=
  let tokens := tok.encode text
  if tokens.length ≤ overlap_tokens then text
  else tok.decode (if overlap_tokens = 0 then tokens else tokens.drop (tokens.length - overlap_tokens))

/-- Model of the source's `DocumentChunk` as produced by the chunker (the
embedding is attached afterwards, see `EChunk`). -/
structure Chunk where
  content : List Char
  pageNumber : Option Nat := none
  startPos : Nat
  endPos : Nat
deriving DecidableEq, Repr

/-- Worker loop of `DocumentProcessor._create_chunks`: walk the paragraph
list keeping the current buffer `cur`, its running token count `curTok`, and
the running character offset `st`; finalize on overflow with an overlap
seed, and flush the last non-empty buffer. -/
def chunksAux (tok : Tokenizer) (cs ov : Nat) :
    List (List Char) → List Char → Nat → Nat → List Chunk
  | [], cur, _, st =>
    if cur = [] then [] else [⟨pyStrip cur, none, st, st + cur.length⟩]
  | p :: ps, cur, curTok, st =>
    let pt := (tok.encode p).length
    if curTok + pt > cs ∧ cur ≠ [] then
      let ovt := get_overlap_text tok cur ov
      let cur2 := ovt ++ ' ' :: p
      ⟨pyStrip cur, none, st, st + cur.length⟩ ::
        chunksAux tok cs ov ps cur2 ((tok.encode cur2).length) (st + cur2.length - ovt.length)
    else
      chunksAux tok cs ov ps (if cur = [] then p else cur ++ '\n' :: '\n' :: p) (curTok + pt) st

/-- Model of `DocumentProcessor._create_chunks` (`cs` is
`settings.CHUNK_SIZE`, `ov` is `settings.CHUNK_OVERLAP`). -/
def create_chunks (tok : Tokenizer) (cs ov : Nat) (text : List Char) : List Chunk :=
  chunksAux tok cs ov (splitNN text) [] 0 0

/-- Annotated variant of a produced chunk, extending the data the source
stores with ghost fields recording the chunker's internal state at the
moment of finalization: the raw (unstripped) buffer, the buffer value at the
most recent buffer reset (its seed), and the running token counter. -/
structure AChunk where
  content : List Char
  startPos : Nat
  endPos : Nat
  buf : List Char
  seed : List Char
  counter : Nat
deriving DecidableEq, Repr

/-- The chunk the source records for an annotated chunk. -/
def AChunk.toChunk (a : AChunk) : Chunk :=
  ⟨a.content, none, a.startPos, a.endPos⟩

/-- `chunksAux` instrumented with the ghost fields of `AChunk`; the same
recursion with the buffer seed carried alongside. -/
def chunksAuxA (tok : Tokenizer) (cs ov : Nat) :
    List (List Char) → List Char → List Char → Nat → Nat → List AChunk
  | [], cur, seed, curTok, st =>
    if cur = [] then [] else [⟨pyStrip cur, st, st + cur.length, cur, seed, curTok⟩]
  | p :: ps, cur, seed, curTok, st =>
    let pt := (tok.encode p).length
    if curTok + pt > cs ∧ cur ≠ [] then
      let ovt := get_overlap_text tok cur ov
      let cur2 := ovt ++ ' ' :: p
      ⟨pyStrip cur, st, st + cur.length, cur, seed, curTok⟩ ::
        chunksAuxA tok cs ov ps cur2 cur2 ((tok.encode cur2).length) (st + cur2.length - ovt.length)
    else
      if cur = [] then chunksAuxA tok cs ov ps p p (curTok + pt) st
      else chunksAuxA tok cs ov ps (cur ++ '\n' :: '\n' :: p) seed (curTok + pt) st

/-- Annotated version of `create_chunks`. -/
def create_chunksA (tok : Tokenizer) (cs ov : Nat) (text : List Char) : List AChunk :=
  chunksAuxA tok cs ov (splitNN text) [] [] 0 0

/-- A chunk with its embedding attached (`DocumentChunk` after
`_generate_embeddings`). -/
structure EChunk where
  chunk : Chunk
  embedding : List ℚ
deriving DecidableEq, Repr

/-- Model of `DocumentProcessor._generate_embeddings`: each chunk receives
the embedding of its content (the embedder is a black-box function). -/
def generate_embeddings (embedFn : List Char → List ℚ) (chunks : List Chunk) : List EChunk :=
  chunks.map fun c => ⟨c, embedFn c.content⟩

/-- Dot product of two embedding vectors (`np.dot`); vectors from the same
model have equal length, extra entries are ignored. -/
def dotQ (a b : List ℚ) : ℚ :=
  (List.zipWith (fun x y => x * y) a b).sum

/-- Squared Euclidean norm of an embedding vector. -/
def normSq (a : List ℚ) : ℚ :=
  dotQ a a

/-- The similarity the source computes for one chunk, reduced to a sortable
key: `np.dot(q, c) / (norm(q) * norm(c))` is `dot / sqrt (Nq * Nc)`, so with
`Nq` fixed its order is determined by the pair `(dot q c, normSq c)`.  When
either norm is zero the float division yields NaN; that undefined value is
modelled as `none`. -/
def simKey (q c : List ℚ) : Option (ℚ × ℚ) :=
  if normSq q = 0 ∨ normSq c = 0 then none else some (dotQ q c, normSq c)

/-- Decides `d1 / sqrt n1 < d2 / sqrt n2` for positive `n1`, `n2` by sign
analysis and squaring (no square roots needed). -/
def keyLT (a b : ℚ × ℚ) : Bool :=
  if 0 ≤ a.1 then decide (0 ≤ b.1) && decide (a.1 ^ 2 * b.2 < b.1 ^ 2 * a.2)
  else decide (0 ≤ b.1) || decide (b.1 ^ 2 * a.2 < a.1 ^ 2 * b.2)

/-- Comparison on similarity keys as Python float `<` behaves: any
comparison against NaN (`none`) is false. -/
def optKeyLT : Option (ℚ × ℚ) → Option (ℚ × ℚ) → Bool
  | some a, some b => keyLT a b
  | _, _ => false

/-- Stable descending insertion: `x` is placed before the first element
whose key is strictly below `x`'s, hence after all earlier elements with an
equal or greater key. -/
def insertDesc {α : Type} (key : α → Option (ℚ × ℚ)) (x : α) : List α → List α
  | [] => [x]
  | y :: ys => if optKeyLT (key y) (key x) then x :: y :: ys else y :: insertDesc key x ys

/-- Stable sort by key, descending — the model of Python's stable
`list.sort(key=..., reverse=True)`.  On NaN-free keys every stable
descending sort agrees with this one. -/
def sortDescBy {α : Type} (key : α → Option (ℚ × ℚ)) (l : List α) : List α :=
  l.foldl (fun acc x => insertDesc key x acc) []

/-- Model of `DocumentProcessor.find_relevant_chunks`: compute each chunk's
similarity to the query embedding, sort descending (stably), return the
first `top_k`. -/
def find_relevant_chunks (chunks : List EChunk) (queryEmb : List ℚ) (top_k : Nat) : List EChunk :=
  (sortDescBy (fun c => simKey queryEmb c.embedding) chunks).take top_k

/-- The cosine similarity named by the specification,
`dot(q, c) / (norm q * norm c)`, as a real number. -/
noncomputable def cosSimR (q c : List ℚ) : ℝ :=
  (dotQ q c : ℝ) / (Real.sqrt ((normSq q : ℚ) : ℝ) * Real.sqrt ((normSq c : ℚ) : ℝ))

/-- Final path component (after the last slash). -/
def lastComponent (p : List Char) : List Char :=
  (p.reverse.takeWhile (fun c => c ≠ '/')).reverse

/-- Model of `pathlib.Path(p).suffix`: the extension of the final component,
i.e. the part from its last dot on, empty when the dot is absent, leading,
or trailing. -/
def pathSuffix (p : List Char) : List Char :=
  let name := lastComponent p
  let tailLen := (name.reverse.takeWhile (fun c => c ≠ '.')).length
  if tailLen = name.length then []
  else
    let i := name.length - 1 - tailLen
    if 0 < i ∧ i < name.length - 1 then name.drop i else []

/-- Model of Python's `str.lower()` on ASCII text. -/
def pyLower (l : List Char) : List Char :=
  l.map Char.toLower

/-- Failures of `process_document`; an extension outside the accepted set
raises `ValueError(f"Unsupported file format: ...")` in the source. -/
inductive ProcError where
  | unsupportedFormat (ext : List Char)
deriving DecidableEq, Repr

/-- Model of `DocumentProcessor.process_document` with the default settings
`CHUNK_SIZE = 1000`, `CHUNK_OVERLAP = 200`.  File reading is I/O, so the
text the extractor returns for the file is passed as `text`; the check on
the extension happens before the pipeline runs, exactly as in the source. -/
def process_document (tok : Tokenizer) (embedFn : List Char → List ℚ)
    (path : List Char) (text : List Char) : Except ProcError (List EChunk) :=
  let ext := pyLower (pathSuffix path)
  if ext = ".pdf".toList ∨ ext = ".txt".toList then
    .ok (generate_embeddings embedFn (create_chunks tok 1000 200 (clean_text text)))
  else
    .error (.unsupportedFormat ext)

/-- Model of `StudyAssistant._select_diverse_chunks`.  When more chunks than
`count` exist, Python computes `len(chunks) // count`, which raises
`ZeroDivisionError` for `count = 0`; that failure is `none` here. -/
def select_diverse_chunks {α : Type} (chunks : List α) (count : Nat) : Option (List α) :=
  if chunks.length ≤ count then some chunks
  else if count = 0 then none
  else
    let step := chunks.length / count
    some ((List.range count).filterMap fun i => chunks.get? (i * step))

/-- Pair each list element with its index, starting at `n` (used to state
stability of the retrieval ranking). -/
def decorate {α : Type} : Nat → List α → List (Nat × α)
  | _, [] => []
  | n, x :: xs => (n, x) :: decorate (n + 1) xs

/-- Relative rank demanded by the specification for the retrieval output:
strictly greater cosine similarity first, ties by original position. -/
def rankRel (q : List ℚ) (a b : Nat × EChunk) : Prop :=
  cosSimR q b.2.embedding < cosSimR q a.2.embedding ∨
    (cosSimR q a.2.embedding = cosSimR q b.2.embedding ∧ a.1 < b.1)

/-- Real value a similarity key stands for: `d / sqrt n`. -/
noncomputable def ratKeyR (k : ℚ × ℚ) : ℝ :=
  (k.1 : ℝ) / Real.sqrt (k.2 : ℝ)

/-- Sum of the per-paragraph token counts, the quantity the chunker's
running counter accumulates while no finalization occurs. -/
def paraTokens (tok : Tokenizer) (ps : List (List Char)) : Nat :=
  (ps.map fun p => (tok.encode p).length).sum

/-- A chunk with an all-zero embedding. -/
def zChunk : EChunk := ⟨⟨['z'], none, 0, 1⟩, [0, 0]⟩

/-- A chunk with a nonzero embedding. -/
def uChunk : EChunk := ⟨⟨['u'], none, 0, 1⟩, [3, 4]⟩

/-- A chunk embedded orthogonally to the test query `[1, 0]`. -/
def aChunk : EChunk := ⟨⟨['a'], none, 0, 1⟩, [0, 1]⟩

/-- A chunk embedded parallel to the test query `[1, 0]`. -/
def bChunk : EChunk := ⟨⟨['b'], none, 0, 1⟩, [1, 0]⟩

/-- Two 500-token paragraphs: their blank-line join has 1002 tokens under
the one-token-per-character tokenizer. -/
def cexText3 : List Char :=
  List.replicate 500 'a' ++ '\n' :: '\n' :: List.replicate 500 'b'

/-- A 900-character paragraph whose 200-token tail starts with a space,
followed by a 200-character paragraph; splitting occurs at the boundary. -/
def cexText4 : List Char :=
  (List.replicate 700 'a' ++ ' ' :: List.replicate 199 'b') ++ '\n' :: '\n' :: List.replicate 200 'c'

/-- Takes every tenth element, starting with the first (decoder of
`decTok`). -/
def every10 : List Nat → List Char
  | [] => []
  | c :: _ :: _ :: _ :: _ :: _ :: _ :: _ :: _ :: _ :: cs => Char.ofNat c :: every10 cs
  | c :: _ => [Char.ofNat c]

/-- A tokenizer instance spending ten tokens per character; `decode` is a
left inverse of `encode` on text, like the source's tokenizer. -/
def decTok : Tokenizer where
  encode l := l.flatMap fun c => List.replicate 10 c.toNat
  decode := every10

/-- A 90-character paragraph (900 tokens under `decTok`) whose 200-token
(20-character) tail starts with a space, then a 20-character paragraph;
splitting occurs at the boundary. -/
def cexText4d : List Char :=
  (List.replicate 70 'a' ++ ' ' :: List.replicate 19 'b') ++ '\n' :: '\n' :: List.replicate 20 'c'

deriving instance DecidableEq for Except

theorem mem_collapseWs_space : ∀ (l : List Char), ∀ c ∈ collapseWs l, isPySpace c = true → c = ' ' := by
  intro l
  induction l using collapseWs.induct with
  | case1 => simp [collapseWs]
  | case2 c h => simp [collapseWs, h]
  | case3 c h =>
    intro x hx hsp
    simp only [collapseWs, if_neg h] at hx
    simp only [List.mem_singleton] at hx
    subst hx
    exact absurd hsp h
  | case4 c d cs h ih =>
    simpa [collapseWs, h] using ih
  | case5 c d cs h ih =>
    intro x hx hsp
    simp only [collapseWs, if_neg h, List.mem_cons] at hx
    rcases hx with hx | hx
    · subst hx
      by_cases hc : isPySpace c
      · simp [hc]
      · rw [if_neg hc] at hsp ⊢
        exact absurd hsp (by simpa using hc)
    · exact ih x hx hsp

theorem no_nl_collapseWs (l : List Char) : '\n' ∉ collapseWs l := by
  intro h
  have := mem_collapseWs_space l '\n' h (by decide)
  simp at this

theorem collapseNlAux_no_nl (l : List Char) (h : '\n' ∉ l) :
    ∀ n, collapseNlAux n l = emitNl n ++ l := by
  induction l with
  | nil => intro n; simp [collapseNlAux]
  | cons c cs ih =>
    intro n
    have hc : c ≠ '\n' := fun he => h (he ▸ List.mem_cons_self c cs)
    have hcs : '\n' ∉ cs := fun hm => h (List.mem_cons_of_mem c hm)
    rw [collapseNlAux, if_neg hc, ih hcs 0]
    simp [emitNl]

theorem collapseNl_no_nl (l : List Char) (h : '\n' ∉ l) : collapseNl l = l := by
  rw [collapseNl, collapseNlAux_no_nl l h 0]
  simp [emitNl]

theorem mem_pyStrip (l : List Char) (c : Char) (h : c ∈ pyStrip l) : c ∈ l := by
  rw [pyStrip, List.mem_reverse] at h
  have h2 := (List.dropWhile_sublist isPySpace).subset h
  rw [List.mem_reverse] at h2
  exact (List.dropWhile_sublist isPySpace).subset h2

theorem no_nl_clean_text (text : List Char) : '\n' ∉ clean_text text := by
  intro h
  have h1 := mem_pyStrip _ _ h
  have h2 : '\n' ∉ (collapseWs text).filter isAllowedChar := by
    intro hm
    exact no_nl_collapseWs text (List.mem_of_mem_filter hm)
  rw [collapseNl_no_nl _ h2] at h1
  exact h2 h1

theorem splitNN_no_nl : ∀ (l : List Char), '\n' ∉ l → splitNN l = [l] := by
  intro l
  induction l using splitNN.induct with
  | case1 => intro _; rfl
  | case2 c => intro _; rfl
  | case3 c d cs h ih =>
    intro hm
    simp only [Bool.and_eq_true, decide_eq_true_eq] at h
    exact absurd (h.1 ▸ List.mem_cons_self c _) hm
  | case4 c d cs h he ih =>
    intro hm
    have : '\n' ∉ d :: cs := fun hx => hm (List.mem_cons_of_mem c hx)
    rw [ih this] at he
    exact absurd he (by simp)
  | case5 c d cs h hd t he ih =>
    intro hm
    have hdc : '\n' ∉ d :: cs := fun hx => hm (List.mem_cons_of_mem c hx)
    have := ih hdc
    rw [splitNN, if_neg h, this]

theorem chunksAux_single (tok : Tokenizer) (cs ov : Nat) (p : List Char) :
    chunksAux tok cs ov [p] [] 0 0 = if p = [] then [] else [⟨pyStrip p, none, 0, p.length⟩] := by
  rw [chunksAux]
  rw [if_neg (fun h => h.2 rfl)]
  rw [if_pos rfl, chunksAux]
  simp

/-- C2 (amended): cleaning collapses every whitespace run (newlines included)
to a single space, so the cleaned text contains no newline at all and in
particular no blank-line boundary; hence the chunker sees a single paragraph
and the finalization/overlap branch is never taken.  Consequently
`process_document` yields exactly one chunk — with `startPos = 0` and content
the (stripped) cleaned text — for every accepted file whose CLEANED text is
non-empty.  (Claim C2's "every non-empty input document" is too strong: an
input whose characters are all removed by cleaning yields zero chunks, see
the counterexample.) -/
theorem clean_text_single_chunk (tok : Tokenizer) (embedFn : List Char → List ℚ)
    (path text : List Char)
    (hext : pyLower (pathSuffix path) = ".pdf".toList ∨ pyLower (pathSuffix path) = ".txt".toList)
    (hne : clean_text text ≠ []) :
    '\n' ∉ clean_text text ∧
    process_document tok embedFn path text =
      Except.ok [⟨⟨pyStrip (clean_text text), none, 0, (clean_text text).length⟩,
        embedFn (pyStrip (clean_text text))⟩] := by
  refine ⟨no_nl_clean_text text, ?_⟩
  simp only [process_document]
  rw [if_pos hext]
  rw [create_chunks, splitNN_no_nl _ (no_nl_clean_text text), chunksAux_single, if_neg hne]
  rw [generate_embeddings]
  simp

/-- C2 witness: a two-letter text file goes through the pipeline as one
chunk. -/
theorem clean_text_single_chunk_witness :
    (pyLower (pathSuffix ("n.txt".toList)) = ".pdf".toList ∨
      pyLower (pathSuffix ("n.txt".toList)) = ".txt".toList) ∧
    (clean_text ("hi".toList) ≠ []) ∧
    ('\n' ∉ clean_text ("hi".toList) ∧
      process_document charTok (fun _ => [1]) ("n.txt".toList) ("hi".toList) =
        Except.ok [⟨⟨pyStrip (clean_text ("hi".toList)), none, 0,
          (clean_text ("hi".toList)).length⟩, [1]⟩]) :=
  ⟨Or.inr (by decide), by decide,
    clean_text_single_chunk charTok (fun _ => [1]) ("n.txt".toList) ("hi".toList)
      (Or.inr (by decide)) (by decide)⟩

/-- C2 counterexample: the document consisting of the single character `@`
is non-empty, yet `process_document` produces zero chunks (cleaning removes
the character and the empty buffer is never flushed), refuting "for every
non-empty input document ... exactly one chunk". -/
theorem c2_cex :
    ("@".toList ≠ ([] : List Char)) ∧
    process_document charTok (fun _ => [1]) ("doc.txt".toList) ("@".toList) = Except.ok [] := by
  decide

/-- C10: for every file path whose (lower-cased) extension is neither
`.pdf` nor `.txt`, `process_document` fails with the unsupported-format
error carrying that extension; the result does not depend on the file text,
the tokenizer, or the embedder, so no extraction, cleaning, chunking, or
embedding work is performed.  Confirmed. -/
theorem process_document_unsupported (tok : Tokenizer) (embedFn : List Char → List ℚ)
    (path text : List Char)
    (h1 : pyLower (pathSuffix path) ≠ ".pdf".toList)
    (h2 : pyLower (pathSuffix path) ≠ ".txt".toList) :
    process_document tok embedFn path text =
      Except.error (ProcError.unsupportedFormat (pyLower (pathSuffix path))) := by
  simp only [process_document]
  rw [if_neg (fun hor => hor.elim h1 h2)]

/-- C10 witness: a `.docx` file is rejected. -/
theorem process_document_unsupported_witness :
    (pyLower (pathSuffix ("report.docx".toList)) ≠ ".pdf".toList) ∧
    (pyLower (pathSuffix ("report.docx".toList)) ≠ ".txt".toList) ∧
    process_document charTok (fun _ => [1]) ("report.docx".toList) ("hi".toList) =
      Except.error (ProcError.unsupportedFormat (".docx".toList)) :=
  ⟨by decide, by decide, by
    rw [process_document_unsupported charTok (fun _ => [1]) ("report.docx".toList)
      ("hi".toList) (by decide) (by decide)]
    decide⟩

/-- C1 (amended): for a chunk whose embedding has zero norm the source
divides by zero; the float result is NaN (undefined, modelled `none`), not
the number `0`, so no exception is raised but no similarity value is
assigned either. -/
theorem simKey_zero_norm (q c : List ℚ) (h : normSq c = 0) : simKey q c = none := by
  simp [simKey, h]

/-- C1 witness: the all-zero embedding has zero norm and an undefined
similarity key. -/
theorem simKey_zero_norm_witness :
    normSq [0, 0] = 0 ∧ simKey [1, 0] [0, 0] = none :=
  ⟨by norm_num [normSq, dotQ], simKey_zero_norm [1, 0] [0, 0] (by norm_num [normSq, dotQ])⟩

/-- C1 counterexample: for the query embedding `[1, 0]` and a chunk with
the all-zero embedding, the computed similarity is undefined (NaN), not
`0`; and in the ranking the zero-norm chunk is NOT least relevant — every
comparison against NaN is false, so the stable sort leaves it in first
position, ahead of a chunk with positive similarity. -/
theorem c1_cex :
    simKey [1, 0] ([0, 0] : List ℚ) = none ∧
    find_relevant_chunks [zChunk, uChunk] [1, 0] 5 = [zChunk, uChunk] ∧
    zChunk ≠ uChunk := by
  refine ⟨?_, ?_, ?_⟩
  · rw [simKey, if_pos (Or.inr (by norm_num [normSq, dotQ]))]
  · have hz : simKey [1, 0] zChunk.embedding = none := by
      rw [simKey, if_pos (Or.inr (by norm_num [zChunk, normSq, dotQ]))]
    simp [find_relevant_chunks, sortDescBy, insertDesc, optKeyLT, hz, List.foldl]
  · intro h
    have h2 : zChunk.chunk.content = uChunk.chunk.content := by rw [h]
    simp [zChunk, uChunk] at h2

theorem stride_lt (len count i : Nat) (h1 : 1 ≤ count) (h2 : count < len) (hi : i < count) :
    i * (len / count) < len := by
  have hm1 : 1 ≤ len / count := (Nat.one_le_div_iff (by omega)).mpr (by omega)
  have hmc : len / count * count ≤ len := Nat.div_mul_le_self len count
  have hmono : i * (len / count) ≤ (count - 1) * (len / count) :=
    Nat.mul_le_mul_right _ (by omega)
  have hsub : (count - 1) * (len / count) = count * (len / count) - 1 * (len / count) :=
    Nat.sub_mul count 1 (len / count)
  have hcm : count * (len / count) = len / count * count := Nat.mul_comm _ _
  omega

theorem filterMap_get_length {α : Type} (l : List α) (f : Nat → Nat) :
    ∀ (idxs : List Nat), (∀ i ∈ idxs, f i < l.length) →
      (idxs.filterMap fun i => l.get? (f i)).length = idxs.length := by
  intro idxs
  induction idxs with
  | nil => intro _; rfl
  | cons i is ih =>
    intro h
    have hv : l.get? (f i) = some (l.get ⟨f i, h i (List.mem_cons_self i is)⟩) :=
      List.get?_eq_get _
    simp only [List.filterMap_cons, hv, List.length_cons]
    rw [ih (fun j hj => h j (List.mem_cons_of_mem i hj))]

/-- C7 (amended): for every `count ≥ 1`, diverse sampling succeeds and
returns exactly `min count (number of chunks)` chunks: all chunks unmodified
when they number at most `count`, otherwise the chunks at indices
`0, step, 2*step, ...` with `step = len / count` (rounded down), which are
in original document order.  For `count = 0` and a non-empty chunk list the
source raises `ZeroDivisionError` instead (see the counterexample). -/
theorem select_diverse_chunks_spec {α : Type} (chunks : List α) (count : Nat) (h : 1 ≤ count) :
    ∃ r, select_diverse_chunks chunks count = some r ∧
      r.length = min count chunks.length ∧
      (chunks.length ≤ count → r = chunks) ∧
      (count < chunks.length →
        r = (List.range count).filterMap fun i => chunks.get? (i * (chunks.length / count))) := by
  by_cases hle : chunks.length ≤ count
  · refine ⟨chunks, ?_, ?_, fun _ => rfl, fun hlt => absurd hlt (by omega)⟩
    · rw [select_diverse_chunks, if_pos hle]
    · omega
  · push_neg at hle
    have hc0 : count ≠ 0 := by omega
    refine ⟨_, ?_, ?_, fun hco => absurd hco (by omega), fun _ => rfl⟩
    · rw [select_diverse_chunks, if_neg (by omega), if_neg hc0]
    · rw [filterMap_get_length chunks _ (List.range count)
        (fun i hi => stride_lt chunks.length count i h hle (List.mem_range.mp hi))]
      simp
      omega

/-- C7 witness: five chunks sampled down to two. -/
theorem select_diverse_chunks_spec_witness :
    (1 ≤ 2) ∧
    ∃ r, select_diverse_chunks [(10 : Nat), 20, 30, 40, 50] 2 = some r ∧
      r.length = min 2 ([(10 : Nat), 20, 30, 40, 50].length) ∧
      ([(10 : Nat), 20, 30, 40, 50].length ≤ 2 → r = [(10 : Nat), 20, 30, 40, 50]) ∧
      (2 < [(10 : Nat), 20, 30, 40, 50].length →
        r = (List.range 2).filterMap fun i =>
          [(10 : Nat), 20, 30, 40, 50].get? (i * ([(10 : Nat), 20, 30, 40, 50].length / 2))) :=
  ⟨by decide, select_diverse_chunks_spec [(10 : Nat), 20, 30, 40, 50] 2 (by decide)⟩

/-- C7 counterexample: with `count = 0` and one chunk present the source
raises `ZeroDivisionError` (`len(chunks) // 0`), so it does not return
`min(0, 1) = 0` chunks as the claim asserts for every count. -/
theorem c7_cex :
    ¬ ∃ r, select_diverse_chunks [(0 : Nat)] 0 = some r ∧
        r.length = min 0 ([(0 : Nat)].length) := by
  decide

theorem splitNN_ne_nil : ∀ (l : List Char), splitNN l ≠ [] := by
  intro l
  induction l using splitNN.induct with
  | case1 => simp [splitNN]
  | case2 c => simp [splitNN]
  | case3 c d cs h ih => simp [splitNN, h]
  | case4 c d cs h he ih => exact absurd he ih
  | case5 c d cs h hd t he ih => rw [splitNN, if_neg h, he]; simp

theorem paraTokens_splitNN_le : ∀ (l : List Char), paraTokens charTok (splitNN l) ≤ l.length := by
  intro l
  induction l using splitNN.induct with
  | case1 => simp [splitNN, paraTokens, charTok]
  | case2 c => simp [splitNN, paraTokens, charTok]
  | case3 c d cs h ih =>
    rw [splitNN, if_pos h]
    simp only [paraTokens, List.map_cons, List.sum_cons] at ih ⊢
    simp only [charTok] at ih ⊢
    simp at ih ⊢
    omega
  | case4 c d cs h he ih => exact absurd he (splitNN_ne_nil _)
  | case5 c d cs h hd t he ih =>
    rw [splitNN, if_neg h, he]
    rw [he] at ih
    simp only [paraTokens, List.map_cons, List.sum_cons, charTok] at ih ⊢
    simp at ih ⊢
    omega

theorem paraTokens_cons (tok : Tokenizer) (p : List Char) (ps : List (List Char)) :
    paraTokens tok (p :: ps) = (tok.encode p).length + paraTokens tok ps := by
  simp [paraTokens]

theorem chunksAux_no_overflow (tok : Tokenizer) (cs ov : Nat) :
    ∀ (ps : List (List Char)) (cur : List Char) (curTok st : Nat),
      curTok + paraTokens tok ps ≤ cs →
      (cur ≠ [] ∨ ∃ p ∈ ps, p ≠ []) →
      ∃ ch, chunksAux tok cs ov ps cur curTok st = [ch] ∧ ch.startPos = st := by
  intro ps
  induction ps with
  | nil =>
    intro cur curTok st _ hne
    rcases hne with hne | ⟨p, hp, _⟩
    · refine ⟨⟨pyStrip cur, none, st, st + cur.length⟩, ?_, rfl⟩
      rw [chunksAux, if_neg hne]
    · exact absurd hp (List.not_mem_nil p)
  | cons p ps ih =>
    intro cur curTok st hb hne
    have hpt : curTok + (tok.encode p).length + paraTokens tok ps ≤ cs := by
      rw [paraTokens_cons] at hb
      omega
    rw [chunksAux]
    rw [if_neg (fun hcon => absurd hcon.1 (by omega))]
    by_cases hc : cur = []
    · rw [if_pos hc]
      refine ih p (curTok + (tok.encode p).length) st (by omega) ?_
      rcases hne with hne | ⟨p2, hp2, hne2⟩
      · exact absurd hc hne
      · rcases List.mem_cons.mp hp2 with rfl | hp3
        · exact Or.inl hne2
        · exact Or.inr ⟨p2, hp3, hne2⟩
    · rw [if_neg hc]
      refine ih _ (curTok + (tok.encode p).length) st (by omega) ?_
      exact Or.inl (by simp [hc])

/-- C8 (amended): empty input text yields zero chunks; any input text with
token count below `maxTokens = 1000` that contains at least one non-blank
paragraph yields exactly one chunk, with `startPos = 0` (and hence no
overlap seeding, which only happens from the second chunk on).  A non-empty
text consisting only of blank-line separators also yields zero chunks (see
the counterexample), so the blank-paragraph proviso is needed. -/
theorem create_chunks_empty_and_small (tok : Tokenizer) (text : List Char)
    (hnb : ∃ p ∈ splitNN text, p ≠ [])
    (htok : (charTok.encode text).length < 1000) :
    create_chunks tok 1000 200 [] = [] ∧
    ∃ ch, create_chunks charTok 1000 200 text = [ch] ∧ ch.startPos = 0 := by
  constructor
  · show chunksAux tok 1000 200 [[]] [] 0 0 = []
    rw [chunksAux]
    rw [if_neg (fun hcon => hcon.2 rfl), if_pos rfl, chunksAux, if_pos rfl]
  · have hlen : text.length < 1000 := by
      simpa [charTok] using htok
    have hb : 0 + paraTokens charTok (splitNN text) ≤ 1000 := by
      have := paraTokens_splitNN_le text
      omega
    exact chunksAux_no_overflow charTok 1000 200 (splitNN text) [] 0 0 hb (Or.inr hnb)

/-- C8 witness: the two-character text `ab` produces one chunk at offset 0. -/
theorem create_chunks_empty_and_small_witness :
    (∃ p ∈ splitNN ("ab".toList), p ≠ []) ∧
    ((charTok.encode ("ab".toList)).length < 1000) ∧
    (create_chunks charTok 1000 200 [] = [] ∧
      ∃ ch, create_chunks charTok 1000 200 ("ab".toList) = [ch] ∧ ch.startPos = 0) :=
  ⟨⟨"ab".toList, by decide, by decide⟩, by decide,
    create_chunks_empty_and_small charTok ("ab".toList)
      ⟨"ab".toList, by decide, by decide⟩ (by decide)⟩

/-- C8 counterexample: the text consisting of one blank-line separator
(`"\n\n"`) is non-empty and has 2 < 1000 tokens, yet the chunker produces
zero chunks, refuting "any non-empty input text whose token count is below
maxTokens yields exactly one chunk". -/
theorem c8_cex :
    (("\n\n".toList : List Char) ≠ []) ∧
    ((charTok.encode ("\n\n".toList)).length < 1000) ∧
    create_chunks charTok 1000 200 ("\n\n".toList) = [] := by
  decide

theorem chunksAux_pos_bounds (tok : Tokenizer) (cs ov : Nat) :
    ∀ (ps : List (List Char)) (cur : List Char) (curTok st : Nat),
      ∀ c ∈ chunksAux tok cs ov ps cur curTok st, st ≤ c.startPos ∧ c.startPos < c.endPos := by
  intro ps
  induction ps with
  | nil =>
    intro cur curTok st c hc
    by_cases h : cur = []
    · rw [chunksAux, if_pos h] at hc
      exact absurd hc (List.not_mem_nil c)
    · rw [chunksAux, if_neg h] at hc
      rw [List.mem_singleton] at hc
      subst hc
      exact ⟨le_refl st, by have := List.length_pos.mpr h; simp; omega⟩
  | cons p ps ih =>
    intro cur curTok st c hc
    rw [chunksAux] at hc
    split at hc
    · rcases List.mem_cons.mp hc with rfl | hc2
      · refine ⟨le_refl st, ?_⟩
        next hcon =>
        have := List.length_pos.mpr hcon.2
        simp
        omega
      · have hrec := ih _ _ _ c hc2
        refine ⟨le_trans ?_ hrec.1, hrec.2⟩
        simp only [List.length_append, List.length_cons]
        omega
    · exact ih _ _ _ c hc

theorem chunksAux_chain (tok : Tokenizer) (cs ov : Nat) :
    ∀ (ps : List (List Char)) (cur : List Char) (curTok st : Nat),
      List.Chain' (fun a b => a.startPos ≤ b.startPos) (chunksAux tok cs ov ps cur curTok st) := by
  intro ps
  induction ps with
  | nil =>
    intro cur curTok st
    rw [chunksAux]
    split
    · exact List.chain'_nil
    · exact List.chain'_singleton _
  | cons p ps ih =>
    intro cur curTok st
    rw [chunksAux]
    split
    · rw [List.chain'_cons']
      refine ⟨?_, ih _ _ _⟩
      intro y hy
      have hmem : y ∈ chunksAux tok cs ov ps _ _ _ := List.mem_of_mem_head? hy
      have hb := (chunksAux_pos_bounds tok cs ov _ _ _ _ y hmem).1
      refine le_trans ?_ hb
      simp only [List.length_append, List.length_cons]
      omega
    · exact ih _ _ _

/-- C9: every chunk produced by the chunker satisfies
`startPos < endPos`, and the `startPos` values are monotonically
non-decreasing in production order (in fact each split advances the
offset).  Confirmed, for every tokenizer and every chunk-size/overlap
setting. -/
theorem create_chunks_positions (tok : Tokenizer) (cs ov : Nat) (text : List Char) :
    (∀ c ∈ create_chunks tok cs ov text, c.startPos < c.endPos) ∧
    (create_chunks tok cs ov text).Pairwise (fun a b => a.startPos ≤ b.startPos) := by
  constructor
  · intro c hc
    exact (chunksAux_pos_bounds tok cs ov _ _ _ _ c hc).2
  · haveI : IsTrans Chunk (fun a b => a.startPos ≤ b.startPos) :=
      ⟨fun _ _ _ h1 h2 => le_trans h1 h2⟩
    exact List.chain'_iff_pairwise.mp (chunksAux_chain tok cs ov _ _ _ _)

/-- C9 witness: the position invariants at a concrete two-chunk run. -/
theorem create_chunks_positions_witness :
    (∀ c ∈ create_chunks charTok 10 3 ("aaaa\n\nbbbb\n\ncccc".toList), c.startPos < c.endPos) ∧
    (create_chunks charTok 10 3 ("aaaa\n\nbbbb\n\ncccc".toList)).Pairwise
      (fun a b => a.startPos ≤ b.startPos) :=
  create_chunks_positions charTok 10 3 ("aaaa\n\nbbbb\n\ncccc".toList)

theorem chunksAuxA_proj (tok : Tokenizer) (cs ov : Nat) :
    ∀ (ps : List (List Char)) (cur seed : List Char) (curTok st : Nat),
      (chunksAuxA tok cs ov ps cur seed curTok st).map AChunk.toChunk =
        chunksAux tok cs ov ps cur curTok st := by
  intro ps
  induction ps with
  | nil =>
    intro cur seed curTok st
    rw [chunksAuxA, chunksAux]
    by_cases h : cur = [] <;> simp [h, AChunk.toChunk]
  | cons p ps ih =>
    intro cur seed curTok st
    rw [chunksAuxA, chunksAux]
    by_cases hcon : curTok + (tok.encode p).length > cs ∧ cur ≠ []
    · rw [if_pos hcon, if_pos hcon]
      simp only [List.map_cons, ih]
      rfl
    · rw [if_neg hcon, if_neg hcon]
      by_cases hc : cur = []
      · rw [if_pos hc, if_pos hc]
        exact ih _ _ _ _
      · rw [if_neg hc, if_neg hc]
        exact ih _ _ _ _

theorem chunksAuxA_counter (tok : Tokenizer) (cs ov : Nat) :
    ∀ (ps : List (List Char)) (cur seed : List Char) (curTok st : Nat),
      (curTok ≤ cs ∨ cur = seed) →
      ∀ a ∈ chunksAuxA tok cs ov ps cur seed curTok st, a.counter ≤ cs ∨ a.buf = a.seed := by
  intro ps
  induction ps with
  | nil =>
    intro cur seed curTok st hinv a ha
    rw [chunksAuxA] at ha
    by_cases h : cur = []
    · rw [if_pos h] at ha
      exact absurd ha (List.not_mem_nil a)
    · rw [if_neg h, List.mem_singleton] at ha
      subst ha
      exact hinv
  | cons p ps ih =>
    intro cur seed curTok st hinv a ha
    rw [chunksAuxA] at ha
    by_cases hcon : curTok + (tok.encode p).length > cs ∧ cur ≠ []
    · rw [if_pos hcon] at ha
      rcases List.mem_cons.mp ha with rfl | ha2
      · exact hinv
      · exact ih _ _ _ _ (Or.inr rfl) a ha2
    · rw [if_neg hcon] at ha
      by_cases hc : cur = []
      · rw [if_pos hc] at ha
        exact ih _ _ _ _ (Or.inr rfl) a ha
      · rw [if_neg hc] at ha
        have hle : curTok + (tok.encode p).length ≤ cs := by
          rcases Nat.lt_or_ge cs (curTok + (tok.encode p).length) with hgt | hge
          · exact absurd ⟨hgt, hc⟩ hcon
          · exact hge
        exact ih _ _ _ _ (Or.inl hle) a ha

theorem chunksAuxA_head_buf (tok : Tokenizer) (cs ov : Nat) :
    ∀ (ps : List (List Char)) (cur seed : List Char) (curTok st : Nat) (a : AChunk)
      (rest : List AChunk),
      chunksAuxA tok cs ov ps cur seed curTok st = a :: rest → List.IsPrefix cur a.buf := by
  intro ps
  induction ps with
  | nil =>
    intro cur seed curTok st a rest he
    rw [chunksAuxA] at he
    by_cases h : cur = []
    · rw [if_pos h] at he
      exact absurd he (by simp)
    · rw [if_neg h] at he
      injection he with e1 _
      rw [← e1]
  | cons p ps ih =>
    intro cur seed curTok st a rest he
    rw [chunksAuxA] at he
    by_cases hcon : curTok + (tok.encode p).length > cs ∧ cur ≠ []
    · rw [if_pos hcon] at he
      injection he with e1 _
      rw [← e1]
    · rw [if_neg hcon] at he
      by_cases hc : cur = []
      · subst hc
        exact List.nil_prefix
      · rw [if_neg hc] at he
        exact (List.prefix_append cur ('\n' :: '\n' :: p)).trans (ih _ _ _ _ a rest he)

theorem chunksAuxA_content (tok : Tokenizer) (cs ov : Nat) :
    ∀ (ps : List (List Char)) (cur seed : List Char) (curTok st : Nat),
      ∀ a ∈ chunksAuxA tok cs ov ps cur seed curTok st, a.content = pyStrip a.buf := by
  intro ps
  induction ps with
  | nil =>
    intro cur seed curTok st a ha
    rw [chunksAuxA] at ha
    by_cases h : cur = []
    · rw [if_pos h] at ha
      exact absurd ha (List.not_mem_nil a)
    · rw [if_neg h, List.mem_singleton] at ha
      subst ha
      rfl
  | cons p ps ih =>
    intro cur seed curTok st a ha
    rw [chunksAuxA] at ha
    by_cases hcon : curTok + (tok.encode p).length > cs ∧ cur ≠ []
    · rw [if_pos hcon] at ha
      rcases List.mem_cons.mp ha with rfl | ha2
      · rfl
      · exact ih _ _ _ _ a ha2
    · rw [if_neg hcon] at ha
      by_cases hc : cur = []
      · rw [if_pos hc] at ha
        exact ih _ _ _ _ a ha
      · rw [if_neg hc] at ha
        exact ih _ _ _ _ a ha

theorem chunksAuxA_chain (tok : Tokenizer) (cs ov : Nat) :
    ∀ (ps : List (List Char)) (cur seed : List Char) (curTok st : Nat),
      List.Chain' (fun a b => List.IsPrefix (get_overlap_text tok a.buf ov ++ [' ']) b.buf)
        (chunksAuxA tok cs ov ps cur seed curTok st) := by
  intro ps
  induction ps with
  | nil =>
    intro cur seed curTok st
    rw [chunksAuxA]
    split
    · exact List.chain'_nil
    · exact List.chain'_singleton _
  | cons p ps ih =>
    intro cur seed curTok st
    rw [chunksAuxA]
    by_cases hcon : curTok + (tok.encode p).length > cs ∧ cur ≠ []
    · rw [if_pos hcon]
      rw [List.chain'_cons']
      refine ⟨?_, ih _ _ _ _⟩
      intro y hy
      cases hrec : chunksAuxA tok cs ov ps
          (get_overlap_text tok cur ov ++ ' ' :: p) (get_overlap_text tok cur ov ++ ' ' :: p)
          ((tok.encode (get_overlap_text tok cur ov ++ ' ' :: p)).length)
          (st + (get_overlap_text tok cur ov ++ ' ' :: p).length -
            (get_overlap_text tok cur ov).length) with
      | nil => rw [hrec] at hy; simp at hy
      | cons y2 r2 =>
        rw [hrec] at hy
        simp only [List.head?_cons, Option.mem_some_iff] at hy
        subst hy
        have hpre := chunksAuxA_head_buf tok cs ov ps _ _ _ _ y2 r2 hrec
        refine List.IsPrefix.trans ?_ hpre
        refine ⟨p, ?_⟩
        simp
    · rw [if_neg hcon]
      by_cases hc : cur = []
      · rw [if_pos hc]
        exact ih _ _ _ _
      · rw [if_neg hc]
        exact ih _ _ _ _

/-- C3 (amended): with `maxTokens = 1000`, every produced chunk either was
finalized while the chunker's running token counter was at most 1000, or
consists of its buffer seed alone — a first paragraph absorbed into an
empty buffer, or the decoded overlap tail joined with the single following
paragraph (either seed may exceed the bound).  The counter omits the
blank-line joiners inserted between paragraphs (and counts nothing for the
initial empty buffer), so the actual token count of a produced chunk can
exceed 1000 even though no single paragraph does — the original claim's
bound and its oversized-single-paragraph exception are both too strong (see
the counterexample).  The first conjunct ties the annotated run to
`create_chunks`. -/
theorem create_chunks_token_bound (tok : Tokenizer) (text : List Char) :
    (create_chunksA tok 1000 200 text).map AChunk.toChunk = create_chunks tok 1000 200 text ∧
    ∀ a ∈ create_chunksA tok 1000 200 text, a.counter ≤ 1000 ∨ a.buf = a.seed := by
  constructor
  · exact chunksAuxA_proj tok 1000 200 (splitNN text) [] [] 0 0
  · exact chunksAuxA_counter tok 1000 200 (splitNN text) [] [] 0 0 (Or.inl (by omega))

/-- C3 witness: the annotated invariant evaluated on the two-paragraph
text of the counterexample. -/
theorem create_chunks_token_bound_witness :
    ((create_chunksA charTok 1000 200 cexText3).map AChunk.toChunk =
      create_chunks charTok 1000 200 cexText3 ∧
    ∀ a ∈ create_chunksA charTok 1000 200 cexText3, a.counter ≤ 1000 ∨ a.buf = a.seed) :=
  create_chunks_token_bound charTok cexText3

set_option maxRecDepth 10000 in
/-- C3 counterexample: two 500-token paragraphs joined by a blank line form
a single chunk of 1002 tokens under `maxTokens = 1000` — above the bound —
while no single paragraph exceeds the bound and the chunk equals no single
paragraph, refuting the claimed bound together with its
oversized-paragraph exception. -/
theorem c3_cex :
    ¬ (∀ ch ∈ create_chunks charTok 1000 200 cexText3,
        (charTok.encode ch.content).length ≤ 1000 ∨
        ∃ p ∈ splitNN cexText3, 1000 < (charTok.encode p).length ∧ ch.content = p) := by
  decide

/-- C4 (amended): the overlap-continuity the code actually provides is at
buffer level: for consecutive chunks `a`, `b` (every boundary is a
mid-document split), the raw buffer of `b` begins with the decoded
200-token tail of `a`'s raw (unstripped) buffer followed by the joining
space, and each chunk's stored content is its buffer with surrounding
whitespace stripped.  The decoded tail is therefore a prefix of chunk
`b`'s content only up to that stripping: when the tail begins with
whitespace, the stripped content of `b` does not start with it (see the
counterexample), and the tail is taken from `a`'s buffer, not from `a`'s
stripped content. -/
theorem create_chunks_overlap_chain (tok : Tokenizer) (text : List Char) :
    (create_chunksA tok 1000 200 text).map AChunk.toChunk = create_chunks tok 1000 200 text ∧
    (∀ a ∈ create_chunksA tok 1000 200 text, a.content = pyStrip a.buf) ∧
    (create_chunksA tok 1000 200 text).Chain'
      (fun a b => List.IsPrefix (get_overlap_text tok a.buf 200 ++ [' ']) b.buf) :=
  ⟨chunksAuxA_proj tok 1000 200 (splitNN text) [] [] 0 0,
   chunksAuxA_content tok 1000 200 (splitNN text) [] [] 0 0,
   chunksAuxA_chain tok 1000 200 (splitNN text) [] [] 0 0⟩

/-- C4 witness: the buffer-level overlap chain on the two-chunk
counterexample text. -/
theorem create_chunks_overlap_chain_witness :
    ((create_chunksA charTok 1000 200 cexText4).map AChunk.toChunk =
      create_chunks charTok 1000 200 cexText4 ∧
    (∀ a ∈ create_chunksA charTok 1000 200 cexText4, a.content = pyStrip a.buf) ∧
    (create_chunksA charTok 1000 200 cexText4).Chain'
      (fun a b => List.IsPrefix (get_overlap_text charTok a.buf 200 ++ [' ']) b.buf)) :=
  create_chunks_overlap_chain charTok cexText4

set_option maxRecDepth 10000 in
/-- C4 counterexample: in the two-chunk run on `cexText4d` (under the
ten-tokens-per-character tokenizer) the decoded 200-token tail of chunk 1
begins with a space, which stripping removes from the head of chunk 2's
content, so the tail is not a prefix of chunk 2 — refuting the claimed
overlap continuity on chunk contents. -/
theorem c4_cex :
    ¬ (create_chunks decTok 1000 200 cexText4d).Chain'
        (fun c1 c2 => List.IsPrefix (get_overlap_text decTok c1.content 200) c2.content) := by
  intro hch
  have he : create_chunks decTok 1000 200 cexText4d =
      [⟨List.replicate 70 'a' ++ ' ' :: List.replicate 19 'b', none, 0, 90⟩,
       ⟨List.replicate 19 'b' ++ ' ' :: List.replicate 20 'c', none, 21, 62⟩] := by decide
  rw [he, List.chain'_cons] at hch
  obtain ⟨hp, -⟩ := hch
  have ho : get_overlap_text decTok (List.replicate 70 'a' ++ ' ' :: List.replicate 19 'b') 200 =
      ' ' :: List.replicate 19 'b' := by decide
  have hp2 : List.IsPrefix (' ' :: List.replicate 19 'b')
      (List.replicate 19 'b' ++ ' ' :: List.replicate 20 'c') := by
    rw [← ho]
    exact hp
  obtain ⟨t, ht⟩ := hp2
  have hh := congrArg List.head? ht
  simp [List.replicate_succ] at hh

theorem insertDesc_perm {α : Type} (key : α → Option (ℚ × ℚ)) (x : α) :
    ∀ (l : List α), List.Perm (insertDesc key x l) (x :: l) := by
  intro l
  induction l with
  | nil => exact List.Perm.refl _
  | cons y ys ih =>
    rw [insertDesc]
    split
    · exact List.Perm.refl _
    · exact (List.Perm.cons y ih).trans (List.Perm.swap x y ys)

theorem sortFold_perm {α : Type} (key : α → Option (ℚ × ℚ)) :
    ∀ (l acc : List α),
      List.Perm (l.foldl (fun a x => insertDesc key x a) acc) (acc ++ l) := by
  intro l
  induction l with
  | nil => intro acc; simp
  | cons x xs ih =>
    intro acc
    rw [List.foldl_cons]
    refine (ih (insertDesc key x acc)).trans ?_
    refine (List.Perm.append_right xs (insertDesc_perm key x acc)).trans ?_
    exact List.perm_middle.symm

theorem sortDescBy_perm {α : Type} (key : α → Option (ℚ × ℚ)) (l : List α) :
    List.Perm (sortDescBy key l) l := by
  simpa [sortDescBy] using sortFold_perm key l []

theorem insertDesc_map {α β : Type} (keyA : α → Option (ℚ × ℚ)) (keyB : β → Option (ℚ × ℚ))
    (f : β → α) (hk : ∀ b, keyA (f b) = keyB b) (x : β) :
    ∀ (l : List β), (insertDesc keyB x l).map f = insertDesc keyA (f x) (l.map f) := by
  intro l
  induction l with
  | nil => rfl
  | cons y ys ih =>
    rw [insertDesc, List.map_cons, insertDesc, hk, hk]
    split
    · rfl
    · rw [List.map_cons, ih]

theorem sortFold_map {α β : Type} (keyA : α → Option (ℚ × ℚ)) (keyB : β → Option (ℚ × ℚ))
    (f : β → α) (hk : ∀ b, keyA (f b) = keyB b) :
    ∀ (l acc : List β),
      (l.foldl (fun a x => insertDesc keyB x a) acc).map f =
        (l.map f).foldl (fun a x => insertDesc keyA x a) (acc.map f) := by
  intro l
  induction l with
  | nil => intro acc; rfl
  | cons x xs ih =>
    intro acc
    rw [List.foldl_cons, List.map_cons, List.foldl_cons, ih, insertDesc_map keyA keyB f hk]

theorem sortDescBy_map {α β : Type} (keyA : α → Option (ℚ × ℚ)) (keyB : β → Option (ℚ × ℚ))
    (f : β → α) (hk : ∀ b, keyA (f b) = keyB b) (l : List β) :
    (sortDescBy keyB l).map f = sortDescBy keyA (l.map f) := by
  rw [sortDescBy, sortDescBy, sortFold_map keyA keyB f hk]
  rfl

theorem decorate_map_snd {α : Type} : ∀ (n : Nat) (l : List α), (decorate n l).map Prod.snd = l := by
  intro n l
  induction l generalizing n with
  | nil => rfl
  | cons x xs ih => rw [decorate, List.map_cons, ih]

theorem mem_decorate {α : Type} :
    ∀ (n : Nat) (l : List α) (y : Nat × α), y ∈ decorate n l → n ≤ y.1 ∧ y.2 ∈ l := by
  intro n l
  induction l generalizing n with
  | nil => intro y hy; exact absurd hy (List.not_mem_nil y)
  | cons x xs ih =>
    intro y hy
    rw [decorate] at hy
    rcases List.mem_cons.mp hy with rfl | hy2
    · exact ⟨le_refl n, List.mem_cons_self x xs⟩
    · have := ih (n + 1) y hy2
      exact ⟨by omega, List.mem_cons_of_mem x this.2⟩

theorem decorate_pairwise_fst {α : Type} :
    ∀ (n : Nat) (l : List α), (decorate n l).Pairwise (fun a b => a.1 < b.1) := by
  intro n l
  induction l generalizing n with
  | nil => exact List.Pairwise.nil
  | cons x xs ih =>
    rw [decorate, List.pairwise_cons]
    exact ⟨fun y hy => by have := (mem_decorate (n + 1) xs y hy).1; omega, ih (n + 1)⟩

theorem normSq_nonneg (a : List ℚ) : 0 ≤ normSq a := by
  rw [normSq, dotQ, List.zipWith_same]
  apply List.sum_nonneg
  intro x hx
  rcases List.mem_map.mp hx with ⟨y, _, rfl⟩
  exact mul_self_nonneg y

theorem ratKeyR_lt_iff (d1 n1 d2 n2 : ℚ) (h1 : 0 < n1) (h2 : 0 < n2) :
    keyLT (d1, n1) (d2, n2) = true ↔ ratKeyR (d1, n1) < ratKeyR (d2, n2) := by
  have s1pos : (0 : ℝ) < Real.sqrt ((n1 : ℝ)) := Real.sqrt_pos.mpr (by exact_mod_cast h1)
  have s2pos : (0 : ℝ) < Real.sqrt ((n2 : ℝ)) := Real.sqrt_pos.mpr (by exact_mod_cast h2)
  have hs1 : Real.sqrt ((n1 : ℝ)) ^ 2 = ((n1 : ℝ)) := Real.sq_sqrt (by exact_mod_cast h1.le)
  have hs2 : Real.sqrt ((n2 : ℝ)) ^ 2 = ((n2 : ℝ)) := Real.sq_sqrt (by exact_mod_cast h2.le)
  simp only [ratKeyR]
  rw [div_lt_div_iff₀ s1pos s2pos]
  simp only [keyLT]
  by_cases hd1 : (0 : ℚ) ≤ d1
  · rw [if_pos hd1]
    by_cases hd2 : (0 : ℚ) ≤ d2
    · simp only [decide_eq_true hd2, Bool.true_and, decide_eq_true_eq]
      have e1 : ((d1 : ℝ) * Real.sqrt ((n2 : ℝ))) ^ 2 = (d1 : ℝ) ^ 2 * ((n2 : ℝ)) := by
        rw [mul_pow, hs2]
      have e2 : ((d2 : ℝ) * Real.sqrt ((n1 : ℝ))) ^ 2 = (d2 : ℝ) ^ 2 * ((n1 : ℝ)) := by
        rw [mul_pow, hs1]
      rw [← pow_lt_pow_iff_left₀ (mul_nonneg (by exact_mod_cast hd1) s2pos.le)
        (mul_nonneg (by exact_mod_cast hd2) s1pos.le) two_ne_zero, e1, e2]
      constructor
      · intro h; exact_mod_cast h
      · intro h; exact_mod_cast h
    · have hd2' : d2 < 0 := not_le.mp hd2
      have hl : (d2 : ℝ) * Real.sqrt ((n1 : ℝ)) < 0 :=
        mul_neg_of_neg_of_pos (by exact_mod_cast hd2') s1pos
      have hr : 0 ≤ (d1 : ℝ) * Real.sqrt ((n2 : ℝ)) :=
        mul_nonneg (by exact_mod_cast hd1) s2pos.le
      refine iff_of_false ?_ (not_lt.mpr (hl.le.trans hr))
      intro hh
      simp only [Bool.and_eq_true, decide_eq_true_eq] at hh
      exact absurd hh.1 hd2
  · have hd1' : d1 < 0 := not_le.mp hd1
    rw [if_neg hd1]
    by_cases hd2 : (0 : ℚ) ≤ d2
    · have hl : (d1 : ℝ) * Real.sqrt ((n2 : ℝ)) < 0 :=
        mul_neg_of_neg_of_pos (by exact_mod_cast hd1') s2pos
      have hr : 0 ≤ (d2 : ℝ) * Real.sqrt ((n1 : ℝ)) :=
        mul_nonneg (by exact_mod_cast hd2) s1pos.le
      exact iff_of_true (by simp [hd2]) (lt_of_lt_of_le hl hr)
    · have hd2' : d2 < 0 := not_le.mp hd2
      simp only [decide_eq_false hd2, Bool.false_or, decide_eq_true_eq]
      have hiff : (d1 : ℝ) * Real.sqrt ((n2 : ℝ)) < (d2 : ℝ) * Real.sqrt ((n1 : ℝ)) ↔
          (-(d2 : ℝ)) * Real.sqrt ((n1 : ℝ)) < (-(d1 : ℝ)) * Real.sqrt ((n2 : ℝ)) := by
        rw [neg_mul, neg_mul, neg_lt_neg_iff]
      have e1 : ((-(d2 : ℝ)) * Real.sqrt ((n1 : ℝ))) ^ 2 = (d2 : ℝ) ^ 2 * ((n1 : ℝ)) := by
        rw [mul_pow, hs1]; ring
      have e2 : ((-(d1 : ℝ)) * Real.sqrt ((n2 : ℝ))) ^ 2 = (d1 : ℝ) ^ 2 * ((n2 : ℝ)) := by
        rw [mul_pow, hs2]; ring
      rw [hiff, ← pow_lt_pow_iff_left₀
        (mul_nonneg (by simpa using (le_of_lt (by exact_mod_cast hd2' : (d2 : ℝ) < 0))) s1pos.le)
        (mul_nonneg (by simpa using (le_of_lt (by exact_mod_cast hd1' : (d1 : ℝ) < 0))) s2pos.le)
        two_ne_zero, e1, e2]
      constructor
      · intro h; exact_mod_cast h
      · intro h; exact_mod_cast h

theorem cosSimR_lt_iff (q c1 c2 : List ℚ) (hqpos : 0 < normSq q) :
    ratKeyR (dotQ q c1, normSq c1) < ratKeyR (dotQ q c2, normSq c2) ↔
      cosSimR q c1 < cosSimR q c2 := by
  have sqpos : (0 : ℝ) < Real.sqrt ((normSq q : ℝ)) := Real.sqrt_pos.mpr (by exact_mod_cast hqpos)
  simp only [ratKeyR, cosSimR]
  rw [div_mul_eq_div_div_swap, div_mul_eq_div_div_swap]
  exact (div_lt_div_iff_of_pos_right sqpos).symm

theorem simKeyLT_iff (q c1 c2 : List ℚ) (hq : normSq q ≠ 0) (h1 : normSq c1 ≠ 0)
    (h2 : normSq c2 ≠ 0) :
    optKeyLT (simKey q c1) (simKey q c2) = true ↔ cosSimR q c1 < cosSimR q c2 := by
  have hqpos : 0 < normSq q := lt_of_le_of_ne (normSq_nonneg q) (Ne.symm hq)
  have h1pos : 0 < normSq c1 := lt_of_le_of_ne (normSq_nonneg c1) (Ne.symm h1)
  have h2pos : 0 < normSq c2 := lt_of_le_of_ne (normSq_nonneg c2) (Ne.symm h2)
  rw [simKey, if_neg (by push_neg; exact ⟨hq, h1⟩), simKey, if_neg (by push_neg; exact ⟨hq, h2⟩)]
  show keyLT _ _ = true ↔ _
  rw [ratKeyR_lt_iff _ _ _ _ h1pos h2pos]
  exact cosSimR_lt_iff q c1 c2 hqpos

theorem insertDesc_pairwise (q : List ℚ) (hq : normSq q ≠ 0) (x : Nat × EChunk)
    (hx : normSq x.2.embedding ≠ 0) :
    ∀ (l : List (Nat × EChunk)),
      (∀ y ∈ l, normSq y.2.embedding ≠ 0) →
      l.Pairwise (rankRel q) →
      (∀ y ∈ l, y.1 < x.1) →
      (insertDesc (fun p => simKey q p.2.embedding) x l).Pairwise (rankRel q) := by
  intro l
  induction l with
  | nil => intro _ _ _; exact List.pairwise_singleton _ _
  | cons y ys ih =>
    intro hnorm hpair hidx
    rw [insertDesc]
    rcases List.pairwise_cons.mp hpair with ⟨hyz, hys⟩
    have hyn : normSq y.2.embedding ≠ 0 := hnorm y (List.mem_cons_self y ys)
    split
    next hlt =>
      have hcyx : cosSimR q y.2.embedding < cosSimR q x.2.embedding :=
        (simKeyLT_iff q y.2.embedding x.2.embedding hq hyn hx).mp hlt
      rw [List.pairwise_cons]
      refine ⟨?_, hpair⟩
      intro z hz
      rcases List.mem_cons.mp hz with rfl | hz2
      · exact Or.inl hcyx
      · rcases hyz z hz2 with hlt2 | ⟨heq2, _⟩
        · exact Or.inl (lt_trans hlt2 hcyx)
        · exact Or.inl (heq2 ▸ hcyx)
    next hnlt =>
      rw [List.pairwise_cons]
      constructor
      · intro z hz
        have hz' : z = x ∨ z ∈ ys := by
          have hmem := (insertDesc_perm (fun p => simKey q p.2.embedding) x ys).mem_iff.mp hz
          simpa using hmem
        rcases hz' with rfl | hz2
        · have hnot : ¬ cosSimR q y.2.embedding < cosSimR q z.2.embedding := fun hcon =>
            hnlt ((simKeyLT_iff q y.2.embedding z.2.embedding hq hyn hx).mpr hcon)
          rcases lt_or_eq_of_le (not_lt.mp hnot) with hlt2 | heq2
          · exact Or.inl hlt2
          · exact Or.inr ⟨heq2.symm, hidx y (List.mem_cons_self y ys)⟩
        · exact hyz z hz2
      · exact ih (fun z hz => hnorm z (List.mem_cons_of_mem y hz)) hys
          (fun z hz => hidx z (List.mem_cons_of_mem y hz))

theorem sortFold_pairwise (q : List ℚ) (hq : normSq q ≠ 0) :
    ∀ (l acc : List (Nat × EChunk)),
      (∀ y ∈ acc, normSq y.2.embedding ≠ 0) →
      (∀ y ∈ l, normSq y.2.embedding ≠ 0) →
      acc.Pairwise (rankRel q) →
      (∀ a ∈ acc, ∀ b ∈ l, a.1 < b.1) →
      l.Pairwise (fun a b => a.1 < b.1) →
      (l.foldl (fun a x => insertDesc (fun p => simKey q p.2.embedding) x a) acc).Pairwise
        (rankRel q) := by
  intro l
  induction l with
  | nil => intro acc _ _ hp _ _; exact hp
  | cons x xs ih =>
    intro acc hacc hl hpair hcross hlp
    rw [List.foldl_cons]
    rcases List.pairwise_cons.mp hlp with ⟨hxb, hxs⟩
    have hx : normSq x.2.embedding ≠ 0 := hl x (List.mem_cons_self x xs)
    apply ih
    · intro y hy
      have hy' : y = x ∨ y ∈ acc := by
        have hmem := (insertDesc_perm (fun p => simKey q p.2.embedding) x acc).mem_iff.mp hy
        simpa using hmem
      rcases hy' with rfl | hy2
      · exact hx
      · exact hacc y hy2
    · intro y hy
      exact hl y (List.mem_cons_of_mem x hy)
    · exact insertDesc_pairwise q hq x hx acc hacc hpair
        (fun y hy => hcross y hy x (List.mem_cons_self x xs))
    · intro a ha b hb
      have ha' : a = x ∨ a ∈ acc := by
        have hmem := (insertDesc_perm (fun p => simKey q p.2.embedding) x acc).mem_iff.mp ha
        simpa using hmem
      rcases ha' with rfl | ha2
      · exact hxb b hb
      · exact hcross a ha2 b (List.mem_cons_of_mem x hb)
    · exact hxs

/-- C5: with every norm nonzero (the domain on which the claimed formula
`dot(q, c) / (norm q * norm c)` denotes a number), `find_relevant_chunks`
returns the first `topK` of a ranking of all chunks that is sorted by
cosine similarity in strictly descending order with ties broken by original
document position (stable sort).  The ranking is a permutation of the
position-decorated chunk list and its pairwise order pins it uniquely.
Confirmed. -/
theorem find_relevant_chunks_ranked (chunks : List EChunk) (q : List ℚ) (k : Nat)
    (hq : normSq q ≠ 0) (hc : ∀ c ∈ chunks, normSq c.embedding ≠ 0) :
    ∃ ranked : List (Nat × EChunk),
      List.Perm ranked (decorate 0 chunks) ∧
      ranked.Pairwise (rankRel q) ∧
      find_relevant_chunks chunks q k = (ranked.take k).map Prod.snd := by
  refine ⟨sortDescBy (fun p => simKey q p.2.embedding) (decorate 0 chunks),
    sortDescBy_perm _ _, ?_, ?_⟩
  · rw [sortDescBy]
    refine sortFold_pairwise q hq (decorate 0 chunks) []
      (fun y hy => absurd hy (List.not_mem_nil y))
      (fun y hy => hc y.2 (mem_decorate 0 chunks y hy).2)
      List.Pairwise.nil
      (fun a ha => absurd ha (List.not_mem_nil a))
      (decorate_pairwise_fst 0 chunks)
  · rw [find_relevant_chunks, List.map_take]
    congr 1
    have hmap := sortDescBy_map (fun c : EChunk => simKey q c.embedding)
      (fun p : Nat × EChunk => simKey q p.2.embedding) Prod.snd (fun b => rfl)
      (decorate 0 chunks)
    rw [hmap, decorate_map_snd]

/-- C5 witness: two unit-norm chunks ranked for the query `[1, 0]`. -/
theorem find_relevant_chunks_ranked_witness :
    (normSq [1, 0] ≠ 0) ∧
    (∀ c ∈ [aChunk, bChunk], normSq c.embedding ≠ 0) ∧
    (∃ ranked : List (Nat × EChunk),
      List.Perm ranked (decorate 0 [aChunk, bChunk]) ∧
      ranked.Pairwise (rankRel [1, 0]) ∧
      find_relevant_chunks [aChunk, bChunk] [1, 0] 5 = (ranked.take 5).map Prod.snd) :=
  ⟨by norm_num [normSq, dotQ],
   by
     intro c hc
     rcases List.mem_cons.mp hc with rfl | hc2
     · norm_num [aChunk, normSq, dotQ]
     · rcases List.mem_cons.mp hc2 with rfl | hc3
       · norm_num [bChunk, normSq, dotQ]
       · exact absurd hc3 (List.not_mem_nil c),
   find_relevant_chunks_ranked [aChunk, bChunk] [1, 0] 5 (by norm_num [normSq, dotQ])
     (by
       intro c hc
       rcases List.mem_cons.mp hc with rfl | hc2
       · norm_num [aChunk, normSq, dotQ]
       · rcases List.mem_cons.mp hc2 with rfl | hc3
         · norm_num [bChunk, normSq, dotQ]
         · exact absurd hc3 (List.not_mem_nil c))⟩

/-- C6: retrieval degenerate cases: an empty chunk list yields an empty
result, and a `topK` at least the number of chunks returns all chunks (as
a permutation — the full ranking), with no error.  This holds for every
query embedding, zero-norm chunks included, because the stable sort always
permutes its input.  Confirmed. -/
theorem find_relevant_chunks_topk (chunks : List EChunk) (q : List ℚ) (k : Nat) :
    find_relevant_chunks [] q k = [] ∧
    (chunks.length ≤ k → List.Perm (find_relevant_chunks chunks q k) chunks) := by
  constructor
  · rw [find_relevant_chunks, sortDescBy, List.foldl_nil, List.take_nil]
  · intro hk
    rw [find_relevant_chunks]
    have hperm := sortDescBy_perm (fun c => simKey q c.embedding) chunks
    rw [List.take_of_length_le (by rw [hperm.length_eq]; exact hk)]
    exact hperm

/-- C6 witness: one chunk, `topK = 5`. -/
theorem find_relevant_chunks_topk_witness :
    ([zChunk].length ≤ 5) ∧
    (find_relevant_chunks [] [1, 0] 5 = [] ∧
      ([zChunk].length ≤ 5 → List.Perm (find_relevant_chunks [zChunk] [1, 0] 5) [zChunk])) :=
  ⟨by decide, find_relevant_chunks_topk [zChunk] [1, 0] 5⟩
